import Mathlib

/-!
Verification of the nixman core: the pacman version model
(`src/versioning.rs`) and the synchronization engine (`src/lib.rs`).
Strings handled by the Rust code are modelled as `List Char` (for the
character-level parsing code) or Lean `String` (for the engine level);
`u32` values are modelled as `Nat` with the 32-bit bound made explicit
where Rust's integer parsing enforces it.
-/

namespace Nixman

/-- Decimal value of a run of digit characters, most significant first;
the accumulator mirrors Rust's integer-parsing loop. -/
def digitsVal (s : List Char) : Nat :=
  s.foldl (fun acc c => acc * 10 + (c.toNat - 48)) 0

/-- Strip a single leading plus sign, as Rust's unsigned `from_str` does
(a leading minus is not treated as a sign for unsigned targets). -/
def stripPlus (s : List Char) : List Char :=
  match s with
  | [] => []
  | c :: rest => if c = '+' then rest else c :: rest

/-- Model of Rust `str::parse::<u32>()` as used by `versioning.rs`:
an optional leading plus sign followed by a non-empty run of ASCII digits
whose decimal value fits in 32 bits; anything else fails. -/
def parseU32 (s : List Char) : Option Nat :=
  if stripPlus s = [] then none
  else if (stripPlus s).all Char.isDigit then
    if digitsVal (stripPlus s) < 4294967296 then some (digitsVal (stripPlus s)) else none
  else none

/-- `Version` from `versioning.rs` (the `u32` fields become `Nat`). -/
structure Version where
  major : Nat
  minor : Nat
  patch : Nat
deriving DecidableEq, Repr

/-- `FullVersion` from `versioning.rs`; the `Epoch(Option<u32>)` and
`Release(u32)` newtype wrappers are flattened into their payloads. -/
structure FullVersion where
  epoch : Option Nat
  version : Version
  release : Nat
deriving DecidableEq, Repr

/-- `impl From<&str> for Epoch`: empty means no epoch, otherwise the
result of `parse().ok()`. -/
def epochFromChars (s : List Char) : Option Nat :=
  if s = [] then none else parseU32 s

/-- `impl From<&str> for Release`: `parse().unwrap_or(0)`. -/
def releaseFromChars (s : List Char) : Nat :=
  (parseU32 s).getD 0

/-- Accumulator-style model of Rust `str::split(c)`: fragments between
occurrences of `c`, in order, never empty as a list of fragments. -/
def splitOnCharAux (c : Char) : List Char → List Char → List (List Char)
  | [], acc => [acc.reverse]
  | x :: xs, acc =>
    if x = c then acc.reverse :: splitOnCharAux c xs []
    else splitOnCharAux c xs (x :: acc)

/-- Rust `str::split(c)` on a character separator. -/
def splitOnChar (c : Char) (s : List Char) : List (List Char) :=
  splitOnCharAux c s []

/-- `impl From<&str> for Version`: split on `.`, first three fragments
parsed permissively, each defaulting to 0. -/
def versionFromChars (s : List Char) : Version :=
  { major := (((splitOnChar '.' s).get? 0).bind parseU32).getD 0
    minor := (((splitOnChar '.' s).get? 1).bind parseU32).getD 0
    patch := (((splitOnChar '.' s).get? 2).bind parseU32).getD 0 }

/-- Split at the first occurrence of `c`: models Rust `s.find(c)` together
with the two slices `&s[..idx]` and `&s[idx + 1..]`. -/
def splitAtFirst (c : Char) : List Char → Option (List Char × List Char)
  | [] => none
  | x :: xs =>
    if x = c then some ([], xs)
    else (splitAtFirst c xs).map (fun p => (x :: p.1, p.2))

/-- Split at the last occurrence of `c`: models Rust `s.rfind(c)` together
with the two surrounding slices. -/
def splitAtLast (c : Char) (s : List Char) : Option (List Char × List Char) :=
  match splitAtFirst c s.reverse with
  | none => none
  | some (x, y) => some (y.reverse, x.reverse)

/-- The epoch step of `FullVersion::from`: `s.find(':')` with
`map_or(("", s), ...)` — no colon means an empty epoch fragment and the
whole input as remainder. -/
def epochSplit (s : List Char) : List Char × List Char :=
  match splitAtFirst ':' s with
  | none => ([], s)
  | some (e, r) => (e, r)

/-- The release step of `FullVersion::from`: `rest.rfind('-')` with
`map_or((rest, "0"), ...)` — no dash means the whole remainder is the
version and the release fragment is the literal string "0". -/
def releaseSplit (rest : List Char) : List Char × List Char :=
  match splitAtLast '-' rest with
  | none => (rest, ['0'])
  | some (v, r) => (v, r)

/-- `impl From<&str> for FullVersion`: split on the first `:` (missing
colon gives an empty epoch fragment), then on the last `-` of the
remainder (missing dash gives the literal release fragment "0"). -/
def fullVersionFromChars (s : List Char) : FullVersion :=
  { epoch := epochFromChars (epochSplit s).1
    version := versionFromChars (releaseSplit (epochSplit s).2).1
    release := releaseFromChars (releaseSplit (epochSplit s).2).2 }

/-- `FullVersion::from` on a Lean `String`. -/
def fullVersionOfString (s : String) : FullVersion :=
  fullVersionFromChars s.data

/-- Decimal rendering of a `Nat`, as Rust's `{}` formatting of a `u32`
renders it: most significant digit first, `0` rendered as "0". -/
def natToChars (n : Nat) : List Char :=
  if n = 0 then ['0'] else ((Nat.digits 10 n).map Nat.digitChar).reverse

/-- `impl Display for FullVersion`: `[epoch:]major.minor.patch-release`,
with the epoch segment omitted when absent. -/
def displayChars (v : FullVersion) : List Char :=
  (match v.epoch with
   | some e => natToChars e ++ [':']
   | none => []) ++
  natToChars v.version.major ++ ['.'] ++ natToChars v.version.minor ++ ['.'] ++
  natToChars v.version.patch ++ ['-'] ++ natToChars v.release

/-- Rust `u32::cmp`. -/
def cmpNat (a b : Nat) : Ordering :=
  if a < b then Ordering.lt else if a = b then Ordering.eq else Ordering.gt

/-- The derived `Ord` on `Epoch(Option<u32>)`: `None` below every
`Some`, and numeric comparison between present values. -/
def cmpEpoch : Option Nat → Option Nat → Ordering
  | none, none => Ordering.eq
  | none, some _ => Ordering.lt
  | some _, none => Ordering.gt
  | some a, some b => cmpNat a b

/-- The derived `Ord` on `Version`: lexicographic on
(major, minor, patch). -/
def cmpVersion (a b : Version) : Ordering :=
  (cmpNat a.major b.major).then ((cmpNat a.minor b.minor).then (cmpNat a.patch b.patch))

/-- The derived `Ord` on `FullVersion`: lexicographic on
(epoch, version, release). -/
def cmpFullVersion (a b : FullVersion) : Ordering :=
  (cmpEpoch a.epoch b.epoch).then
    ((cmpVersion a.version b.version).then (cmpNat a.release b.release))

/-- Spec-side strict order on epochs, written from the spec's words:
absence sorts strictly below any present value, present values compare
numerically. -/
def epochLtSpec : Option Nat → Option Nat → Prop
  | none, none => False
  | none, some _ => True
  | some _, none => False
  | some a, some b => a < b

/-- Spec-side strict lexicographic order on version triples. -/
def versionLtSpec (a b : Version) : Prop :=
  a.major < b.major ∨
    (a.major = b.major ∧
      (a.minor < b.minor ∨ (a.minor = b.minor ∧ a.patch < b.patch)))

/-- Spec-side strict order on `FullVersion`, written from the spec's
words: epoch first, then version fields, then release. -/
def fullVersionLtSpec (a b : FullVersion) : Prop :=
  epochLtSpec a.epoch b.epoch ∨
    (a.epoch = b.epoch ∧
      (versionLtSpec a.version b.version ∨
        (a.version = b.version ∧ a.release < b.release)))

/-- `Package` from `src/lib.rs`: a name with an optional version. -/
structure Package where
  name : String
  version : Option FullVersion
deriving DecidableEq, Repr

/-- The delta computation at the heart of `sync_packages_from_yaml`
(`src/lib.rs`): dedup the desired names and the installed names into
sets, and take the two set differences.  The file reading and YAML
parsing that precede it in the Rust function are external IO; the
unspecified iteration order of the resulting `Vec`s is modelled by
returning the `Finset`s themselves. -/
def computeDelta (desired : List Package) (installed : List String) :
    Finset String × Finset String :=
  let wanted := (desired.map Package.name).toFinset
  let inst := installed.toFinset
  (wanted \ inst, inst \ wanted)

/-- Result of one collaborator invocation in `src/pacman.rs`:
`std::io::Result<ExitStatus>`, i.e. either an IO error (the command could
not be executed) or an exit status that did or did not succeed. -/
inductive OpResult where
  | ioError (msg : String)
  | status (success : Bool)
deriving DecidableEq, Repr

/-- The abstract package-operations collaborator: the remove/install
entry points of `src/pacman.rs` (the pacman and paru variants share this
shape; `apply_packages_from_yaml` picks one by the `use_paru` flag). -/
structure Ops where
  remove : List String → OpResult
  install : List String → OpResult

/-- One observed invocation of the collaborator. -/
inductive Call where
  | remove (names : List String)
  | install (names : List String)
deriving DecidableEq, Repr

/-- The `continue_on_error` per-package loop of `apply_packages_from_yaml`:
invoke the operation once per name; an IO error aborts at once via `?`,
a failing exit status is pushed onto the failed list and the loop goes
on.  Returns the invocations made and either the abort message or the
failed names in iteration order. -/
def runPerPackage (mkCall : List String → Call) (op : List String → OpResult) :
    List String → List Call × Except String (List String)
  | [] => ([], Except.ok [])
  | p :: rest =>
    match op [p] with
    | OpResult.ioError m => ([mkCall [p]], Except.error m)
    | OpResult.status ok =>
      let next := runPerPackage mkCall op rest
      (mkCall [p] :: next.1,
        match next.2 with
        | Except.error m => Except.error m
        | Except.ok failed => Except.ok (if ok then failed else p :: failed))

/-- The aggregated failure message built at the end of
`apply_packages_from_yaml`: each non-empty category is rendered as a
header plus the comma-joined names, followed by a newline. -/
def aggregateMessage (failedRemovals failedInstalls : List String) : String :=
  (if failedRemovals = [] then ""
   else "Failed to remove packages: " ++ String.intercalate ", " failedRemovals ++ "\n") ++
  (if failedInstalls = [] then ""
   else "Failed to install packages: " ++ String.intercalate ", " failedInstalls ++ "\n")

/-- `apply_packages_from_yaml` from the point where the delta is known
(the preceding installed-query and YAML load are external IO whose errors
propagate immediately).  Returns the collaborator invocations in order
together with the overall result.  Removal phase first, then install
phase; each phase is skipped when its set is empty, is one batch call
when `continueOnError` is false, and is one call per name when it is
true; phase results are combined exactly as the Rust code combines
them. -/
def applyPackages (toRemove toInstall : List String) (ops : Ops)
    (continueOnError : Bool) : List Call × Except String Unit :=
  if toInstall = [] ∧ toRemove = [] then ([], Except.ok ())
  else
    let rem : List Call × Except String (List String) :=
      if toRemove = [] then ([], Except.ok [])
      else if continueOnError then runPerPackage Call.remove ops.remove toRemove
      else
        match ops.remove toRemove with
        | OpResult.ioError m => ([Call.remove toRemove], Except.error m)
        | OpResult.status true => ([Call.remove toRemove], Except.ok [])
        | OpResult.status false =>
            ([Call.remove toRemove], Except.error "Failed to remove some packages")
    match rem with
    | (calls, Except.error m) => (calls, Except.error m)
    | (removeCalls, Except.ok failedRemovals) =>
      let ins : List Call × Except String (List String) :=
        if toInstall = [] then ([], Except.ok [])
        else if continueOnError then runPerPackage Call.install ops.install toInstall
        else
          match ops.install toInstall with
          | OpResult.ioError m => ([Call.install toInstall], Except.error m)
          | OpResult.status true => ([Call.install toInstall], Except.ok [])
          | OpResult.status false =>
              ([Call.install toInstall], Except.error "Failed to install some packages")
      match ins with
      | (calls, Except.error m) => (removeCalls ++ calls, Except.error m)
      | (installCalls, Except.ok failedInstalls) =>
        (removeCalls ++ installCalls,
          if failedRemovals = [] ∧ failedInstalls = [] then Except.ok ()
          else Except.error (aggregateMessage failedRemovals failedInstalls))

/-- A YAML value, as the self-describing input that serde hands to the
visitors in `src/lib.rs` (scalar strings, nulls, and string-keyed
mappings are the shapes the declarative file schema exercises). -/
inductive Yaml where
  | null
  | str (s : String)
  | map (entries : List (String × Yaml))

/-- `impl Deserialize for FullVersion`: `deserialize_str` with a visitor
that only implements `visit_str`.  A self-describing format drives the
visitor from the actual input, so a string parses leniently via
`FullVersion::from` and any other shape (null included) is an invalid
type error. -/
def fullVersionDeser : Yaml → Except String FullVersion
  | Yaml.str s => Except.ok (fullVersionOfString s)
  | Yaml.null => Except.error "invalid type: null, expected a version string"
  | Yaml.map _ => Except.error "invalid type: map, expected a version string"

/-- The key loop of `visit_map` in `impl Deserialize for Package`:
`name` takes a string value, `version` takes a `FullVersion` value,
any other key has its value ignored, and a later duplicate key
overwrites an earlier one. -/
def packageFromMapLoop :
    List (String × Yaml) → Option String → Option FullVersion →
    Except String Package
  | [], nameAcc, versionAcc =>
    match nameAcc with
    | none => Except.error "missing field name"
    | some n => Except.ok { name := n, version := versionAcc }
  | (k, v) :: rest, nameAcc, versionAcc =>
    if k = "name" then
      match v with
      | Yaml.str s => packageFromMapLoop rest (some s) versionAcc
      | _ => Except.error "invalid type for field name"
    else if k = "version" then
      match fullVersionDeser v with
      | Except.ok fv => packageFromMapLoop rest nameAcc (some fv)
      | Except.error e => Except.error e
    else packageFromMapLoop rest nameAcc versionAcc

/-- `visit_map` of `impl Deserialize for Package`. -/
def packageFromMap (entries : List (String × Yaml)) : Except String Package :=
  packageFromMapLoop entries none none

/-- `impl Deserialize for Package` under `deserialize_any`: a bare string
is a name with no version, a mapping goes through `visit_map`, and any
other shape is an invalid type error. -/
def packageDeser : Yaml → Except String Package
  | Yaml.str s => Except.ok { name := s, version := none }
  | Yaml.map entries => packageFromMap entries
  | Yaml.null => Except.error "invalid type: null, expected a string or a map"

/-- `impl From<&str> for Package`: `splitn(2, ' ')` yields the name and
the tail after the first space; an empty tail means no version, a
non-empty tail is parsed by `FullVersion::from`. -/
def packageFromLine (s : String) : Package :=
  match splitAtFirst ' ' s.data with
  | none => { name := s, version := none }
  | some (a, b) =>
    { name := String.mk a
      version := if b = [] then none else some (fullVersionFromChars b) }

/-- Rust `char::is_whitespace`: the Unicode White_Space property —
U+0009..U+000D, space, NEL (U+0085), NBSP (U+00A0), the ogham space mark
(U+1680), the space separators U+2000..U+200A, the line and paragraph
separators (U+2028, U+2029), narrow NBSP (U+202F), medium mathematical
space (U+205F) and the ideographic space (U+3000). -/
def isRustWhitespace (c : Char) : Bool :=
  decide ((9 ≤ c.toNat ∧ c.toNat ≤ 13) ∨ c.toNat = 32 ∨ c.toNat = 133 ∨
    c.toNat = 160 ∨ c.toNat = 5760 ∨ (8192 ≤ c.toNat ∧ c.toNat ≤ 8202) ∨
    c.toNat = 8232 ∨ c.toNat = 8233 ∨ c.toNat = 8239 ∨ c.toNat = 8287 ∨
    c.toNat = 12288)

/-- First token of Rust `split_whitespace().next().unwrap_or("")`:
leading Unicode whitespace dropped, then the run up to the next Unicode
whitespace character. -/
def firstWhitespaceToken (s : String) : String :=
  String.mk ((s.data.dropWhile isRustWhitespace).takeWhile (fun c => ! isRustWhitespace c))

/-- Accumulator model of Rust `split_inclusive('\n')`: fragments keep
their terminating newline, an empty input yields no fragments, a final
unterminated fragment is kept. -/
def splitInclusiveAux (c : Char) : List Char → List Char → List (List Char)
  | [], acc => if acc = [] then [] else [acc.reverse]
  | x :: xs, acc =>
    if x = c then (x :: acc).reverse :: splitInclusiveAux c xs []
    else splitInclusiveAux c xs (x :: acc)

/-- Strip one trailing line feed, and a carriage return just before it,
as the mapping step of Rust `str::lines` does. -/
def stripLineEnd (l : List Char) : List Char :=
  if l.getLast? = some '\n' then
    if l.dropLast.getLast? = some '\r' then l.dropLast.dropLast else l.dropLast
  else l

/-- Model of Rust `str::lines`. -/
def rustLines (s : String) : List String :=
  (splitInclusiveAux '\n' s.data []).map (fun l => String.mk (stripLineEnd l))

/-- `parse_explicit_packages` from `src/lib.rs`: one `Package` per line;
versioned listings go through `Package::from`, unversioned ones keep only
the first whitespace-delimited token as the name. -/
def parse_explicit_packages (output : String) (versioned : Bool) : List Package :=
  if versioned then (rustLines output).map packageFromLine
  else
    (rustLines output).map
      (fun line => { name := firstWhitespaceToken line, version := none })

theorem cmpNat_eq_lt (a b : Nat) : cmpNat a b = Ordering.lt ↔ a < b := by
  unfold cmpNat
  by_cases h1 : a < b <;> by_cases h2 : a = b <;> simp [h1, h2]

theorem cmpNat_eq_eq (a b : Nat) : cmpNat a b = Ordering.eq ↔ a = b := by
  unfold cmpNat
  split
  · rename_i h
    simp
    omega
  · split
    · rename_i h2
      simp [h2]
    · rename_i h h2
      simp
      exact h2

theorem cmpNat_eq_gt (a b : Nat) : cmpNat a b = Ordering.gt ↔ b < a := by
  unfold cmpNat
  by_cases h1 : a < b <;> by_cases h2 : a = b <;> simp [h1, h2] <;> omega

theorem then_eq_lt (o₁ o₂ : Ordering) :
    o₁.then o₂ = Ordering.lt ↔ o₁ = Ordering.lt ∨ (o₁ = Ordering.eq ∧ o₂ = Ordering.lt) := by
  cases o₁ <;> simp [Ordering.then]

theorem then_eq_eq (o₁ o₂ : Ordering) :
    o₁.then o₂ = Ordering.eq ↔ o₁ = Ordering.eq ∧ o₂ = Ordering.eq := by
  cases o₁ <;> simp [Ordering.then]

theorem then_eq_gt (o₁ o₂ : Ordering) :
    o₁.then o₂ = Ordering.gt ↔ o₁ = Ordering.gt ∨ (o₁ = Ordering.eq ∧ o₂ = Ordering.gt) := by
  cases o₁ <;> simp [Ordering.then]

theorem cmpVersion_eq_eq (a b : Version) : cmpVersion a b = Ordering.eq ↔ a = b := by
  obtain ⟨a1, a2, a3⟩ := a
  obtain ⟨b1, b2, b3⟩ := b
  simp [cmpVersion, then_eq_eq, cmpNat_eq_eq, Version.mk.injEq]

theorem cmpVersion_eq_lt (a b : Version) :
    cmpVersion a b = Ordering.lt ↔ versionLtSpec a b := by
  obtain ⟨a1, a2, a3⟩ := a
  obtain ⟨b1, b2, b3⟩ := b
  simp [cmpVersion, versionLtSpec, then_eq_lt, cmpNat_eq_lt, cmpNat_eq_eq]

theorem cmpVersion_eq_gt (a b : Version) :
    cmpVersion a b = Ordering.gt ↔ versionLtSpec b a := by
  obtain ⟨a1, a2, a3⟩ := a
  obtain ⟨b1, b2, b3⟩ := b
  simp [cmpVersion, versionLtSpec, then_eq_gt, cmpNat_eq_gt, cmpNat_eq_eq]
  constructor
  · rintro (h | h) <;> omega
  · rintro (h | h) <;> omega

theorem cmpEpoch_eq_eq (a b : Option Nat) : cmpEpoch a b = Ordering.eq ↔ a = b := by
  cases a <;> cases b <;> simp [cmpEpoch, cmpNat_eq_eq]

theorem cmpEpoch_eq_lt (a b : Option Nat) :
    cmpEpoch a b = Ordering.lt ↔ epochLtSpec a b := by
  cases a <;> cases b <;> simp [cmpEpoch, epochLtSpec, cmpNat_eq_lt]

theorem cmpEpoch_eq_gt (a b : Option Nat) :
    cmpEpoch a b = Ordering.gt ↔ epochLtSpec b a := by
  cases a <;> cases b <;> simp [cmpEpoch, epochLtSpec, cmpNat_eq_gt]

theorem cmpFullVersion_eq_eq (a b : FullVersion) :
    cmpFullVersion a b = Ordering.eq ↔ a = b := by
  obtain ⟨ae, av, ar⟩ := a
  obtain ⟨be, bv, br⟩ := b
  simp [cmpFullVersion, then_eq_eq, cmpEpoch_eq_eq, cmpVersion_eq_eq, cmpNat_eq_eq,
    FullVersion.mk.injEq]

theorem cmpFullVersion_eq_lt (a b : FullVersion) :
    cmpFullVersion a b = Ordering.lt ↔ fullVersionLtSpec a b := by
  obtain ⟨ae, av, ar⟩ := a
  obtain ⟨be, bv, br⟩ := b
  simp [cmpFullVersion, fullVersionLtSpec, then_eq_lt, cmpEpoch_eq_lt, cmpEpoch_eq_eq,
    cmpVersion_eq_lt, cmpVersion_eq_eq, cmpNat_eq_lt]

theorem cmpFullVersion_eq_gt (a b : FullVersion) :
    cmpFullVersion a b = Ordering.gt ↔ fullVersionLtSpec b a := by
  obtain ⟨ae, av, ar⟩ := a
  obtain ⟨be, bv, br⟩ := b
  simp [cmpFullVersion, fullVersionLtSpec, then_eq_gt, cmpEpoch_eq_gt, cmpEpoch_eq_eq,
    cmpVersion_eq_gt, cmpVersion_eq_eq, cmpNat_eq_gt]
  constructor
  · rintro (h | ⟨h1, h2 | h3⟩)
    · exact Or.inl h
    · exact Or.inr ⟨h1.symm, Or.inl h2⟩
    · exact Or.inr ⟨h1.symm, Or.inr ⟨h3.1.symm, h3.2⟩⟩
  · rintro (h | ⟨h1, h2 | h3⟩)
    · exact Or.inl h
    · exact Or.inr ⟨h1.symm, Or.inl h2⟩
    · exact Or.inr ⟨h1.symm, Or.inr ⟨h3.1.symm, h3.2⟩⟩

/-- C2: comparison of `FullVersion` values is a total order — for all
`a` and `b` exactly one of `a < b`, `a = b`, `a > b` holds — and it is
the lexicographic order that compares the epoch first (an absent epoch
strictly below any present one, present ones numerically), then the
version fields major, minor, patch numerically, then the release
numerically. -/
theorem fullVersion_order_total_lex (a b : FullVersion) :
    (cmpFullVersion a b = Ordering.eq ↔ a = b) ∧
    (cmpFullVersion a b = Ordering.lt ↔ fullVersionLtSpec a b) ∧
    (cmpFullVersion a b = Ordering.gt ↔ fullVersionLtSpec b a) ∧
    ((fullVersionLtSpec a b ∧ a ≠ b ∧ ¬ fullVersionLtSpec b a) ∨
      (¬ fullVersionLtSpec a b ∧ a = b ∧ ¬ fullVersionLtSpec b a) ∨
      (¬ fullVersionLtSpec a b ∧ a ≠ b ∧ fullVersionLtSpec b a)) := by
  refine ⟨cmpFullVersion_eq_eq a b, cmpFullVersion_eq_lt a b, cmpFullVersion_eq_gt a b, ?_⟩
  rcases h : cmpFullVersion a b with _ | _ | _
  · refine Or.inl ⟨(cmpFullVersion_eq_lt a b).mp h, ?_, ?_⟩
    · intro he
      rw [← cmpFullVersion_eq_eq a b] at he
      simp [h] at he
    · intro hgt
      rw [← cmpFullVersion_eq_gt a b] at hgt
      simp [h] at hgt
  · refine Or.inr (Or.inl ⟨?_, (cmpFullVersion_eq_eq a b).mp h, ?_⟩)
    · intro hlt
      rw [← cmpFullVersion_eq_lt a b] at hlt
      simp [h] at hlt
    · intro hgt
      rw [← cmpFullVersion_eq_gt a b] at hgt
      simp [h] at hgt
  · refine Or.inr (Or.inr ⟨?_, ?_, (cmpFullVersion_eq_gt a b).mp h⟩)
    · intro hlt
      rw [← cmpFullVersion_eq_lt a b] at hlt
      simp [h] at hlt
    · intro he
      rw [← cmpFullVersion_eq_eq a b] at he
      simp [h] at he

/-- C3 counterexample: the spec's first ordering example is refuted by
the code — `Parse("1:1.0.0-1") > Parse("2.0.0-9")` is in fact true
(a present epoch sorts above an absent one), so the claimed conjunction
"the first comparison is false and the second is true" fails. -/
theorem orderingExample_claim_false :
    ¬ (cmpFullVersion (fullVersionOfString "1:1.0.0-1") (fullVersionOfString "2.0.0-9") ≠
          Ordering.gt ∧
        cmpFullVersion (fullVersionOfString "2:1.0-1") (fullVersionOfString "1:99.99.99-99") =
          Ordering.gt) := by
  intro h
  exact h.1 (by decide)

/-- C3 amended: under the implemented comparison both of the spec's
example comparisons are greater-than —
`Parse("1:1.0.0-1") > Parse("2.0.0-9")` is true (epoch present beats
epoch absent) and `Parse("2:1.0-1") > Parse("1:99.99.99-99")` is
true. -/
theorem orderingExample_amended :
    cmpFullVersion (fullVersionOfString "1:1.0.0-1") (fullVersionOfString "2.0.0-9") =
        Ordering.gt ∧
      cmpFullVersion (fullVersionOfString "2:1.0-1") (fullVersionOfString "1:99.99.99-99") =
        Ordering.gt := by
  exact ⟨by decide, by decide⟩

/-- C4: the parser is total (every `List Char` maps to a `FullVersion`
by the very type of `fullVersionFromChars`) and degrades malformed input
to defaults: the three concrete leniency examples of the spec hold, an
unparsable or empty epoch fragment yields an absent epoch (also when the
input has no colon at all), an unparsable or empty release fragment
yields release 0, and each missing or unparsable version component
yields 0. -/
theorem parse_leniency_defaults :
    (fullVersionOfString "" = ⟨none, ⟨0, 0, 0⟩, 0⟩) ∧
    (fullVersionOfString "5" = ⟨none, ⟨5, 0, 0⟩, 0⟩) ∧
    (fullVersionOfString "1.2-3" = ⟨none, ⟨1, 2, 0⟩, 3⟩) ∧
    (∀ s, parseU32 s = none → epochFromChars s = none) ∧
    (∀ s, parseU32 s = none → releaseFromChars s = 0) ∧
    (∀ s, ((splitOnChar '.' s).get? 0).bind parseU32 = none →
      (versionFromChars s).major = 0) ∧
    (∀ s, ((splitOnChar '.' s).get? 1).bind parseU32 = none →
      (versionFromChars s).minor = 0) ∧
    (∀ s, ((splitOnChar '.' s).get? 2).bind parseU32 = none →
      (versionFromChars s).patch = 0) ∧
    (∀ s, splitAtFirst ':' s = none → (fullVersionFromChars s).epoch = none) ∧
    (∀ s e rest, splitAtFirst ':' s = some (e, rest) →
      (fullVersionFromChars s).epoch = epochFromChars e) := by
  refine ⟨by decide, by decide, by decide, ?_, ?_, ?_, ?_, ?_, ?_, ?_⟩
  · intro s h
    simp [epochFromChars, h]
  · intro s h
    simp [releaseFromChars, h]
  · intro s h
    simp only [List.get?_eq_getElem?] at h
    simp [versionFromChars, h]
  · intro s h
    simp only [List.get?_eq_getElem?] at h
    simp [versionFromChars, h]
  · intro s h
    simp only [List.get?_eq_getElem?] at h
    simp [versionFromChars, h]
  · intro s h
    simp [fullVersionFromChars, epochSplit, h, epochFromChars]
  · intro s e rest h
    simp [fullVersionFromChars, epochSplit, h]

/-- C4 witness: the leniency defaults applied at concrete unparsable
fragments. -/
theorem parse_leniency_defaults_witness :
    epochFromChars ['x'] = none ∧ releaseFromChars ['x'] = 0 ∧
      (versionFromChars ['x']).major = 0 ∧ (versionFromChars ['x']).minor = 0 ∧
      (versionFromChars ['x']).patch = 0 ∧
      (fullVersionFromChars ['x']).epoch = none ∧
      (fullVersionFromChars [':']).epoch = epochFromChars [] := by
  refine ⟨?_, ?_, ?_, ?_, ?_, ?_, ?_⟩
  · exact parse_leniency_defaults.2.2.2.1 ['x'] (by decide)
  · exact parse_leniency_defaults.2.2.2.2.1 ['x'] (by decide)
  · exact parse_leniency_defaults.2.2.2.2.2.1 ['x'] (by decide)
  · exact parse_leniency_defaults.2.2.2.2.2.2.1 ['x'] (by decide)
  · exact parse_leniency_defaults.2.2.2.2.2.2.2.1 ['x'] (by decide)
  · exact parse_leniency_defaults.2.2.2.2.2.2.2.2.1 ['x'] (by decide)
  · exact parse_leniency_defaults.2.2.2.2.2.2.2.2.2 [':'] [] [] (by decide)

theorem digitChar_isDigit {d : Nat} (h : d < 10) : (Nat.digitChar d).isDigit = true := by
  interval_cases d <;> decide

theorem digitChar_val {d : Nat} (h : d < 10) : (Nat.digitChar d).toNat - 48 = d := by
  interval_cases d <;> decide

theorem natToChars_ne_nil (n : Nat) : natToChars n ≠ [] := by
  unfold natToChars
  split
  · simp
  · rename_i h
    simp [Nat.digits_ne_nil_iff_ne_zero.mpr h]

theorem natToChars_all_isDigit (n : Nat) : ∀ c ∈ natToChars n, c.isDigit = true := by
  intro c hc
  unfold natToChars at hc
  split at hc
  · simp at hc
    subst hc
    decide
  · simp only [List.mem_reverse, List.mem_map] at hc
    obtain ⟨d, hd, rfl⟩ := hc
    exact digitChar_isDigit (Nat.digits_lt_base (by norm_num) hd)

theorem not_mem_of_all_isDigit {l : List Char} (h : ∀ c ∈ l, c.isDigit = true)
    {c : Char} (hc : c.isDigit = false) : c ∉ l := by
  intro hm
  rw [h c hm] at hc
  cases hc

theorem foldr_digitChar (L : List Nat) (hL : ∀ d ∈ L, d < 10) :
    (L.map Nat.digitChar).foldr (fun c acc => acc * 10 + (c.toNat - 48)) 0 =
      L.foldr (fun d acc => acc * 10 + d) 0 := by
  induction L with
  | nil => rfl
  | cons d L ih =>
    simp only [List.map_cons, List.foldr_cons]
    rw [ih (fun x hx => hL x (List.mem_cons_of_mem _ hx)),
      digitChar_val (hL d (List.mem_cons_self _ _))]

theorem foldr_ofDigits (L : List Nat) :
    L.foldr (fun d acc => acc * 10 + d) 0 = Nat.ofDigits 10 L := by
  induction L with
  | nil => simp [Nat.ofDigits]
  | cons d L ih =>
    simp [Nat.ofDigits_cons, ih]
    ring

theorem digitsVal_natToChars (n : Nat) : digitsVal (natToChars n) = n := by
  unfold natToChars
  split
  · rename_i h
    subst h
    decide
  · unfold digitsVal
    rw [List.foldl_reverse]
    rw [foldr_digitChar _ (fun d hd => Nat.digits_lt_base (by norm_num) hd), foldr_ofDigits,
      Nat.ofDigits_digits]

theorem stripPlus_eq_self {l : List Char} (h : ∀ c ∈ l, c.isDigit = true) :
    stripPlus l = l := by
  cases l with
  | nil => rfl
  | cons c cs =>
    have hd : c.isDigit = true := h c (List.mem_cons_self _ _)
    have hc : ¬ c = '+' := by
      intro hc
      subst hc
      exact absurd hd (by decide)
    simp [stripPlus, hc]

theorem parseU32_natToChars {n : Nat} (h : n < 4294967296) :
    parseU32 (natToChars n) = some n := by
  have hall := natToChars_all_isDigit n
  unfold parseU32
  rw [stripPlus_eq_self hall, if_neg (natToChars_ne_nil n),
    if_pos (List.all_eq_true.mpr hall), digitsVal_natToChars, if_pos h]

theorem parseU32_lt {s : List Char} {n : Nat} (h : parseU32 s = some n) :
    n < 4294967296 := by
  unfold parseU32 at h
  split at h
  · simp at h
  · split at h
    · split at h
      · rename_i hlt
        obtain rfl : digitsVal (stripPlus s) = n := Option.some.inj h
        exact hlt
      · simp at h
    · simp at h

theorem splitAtFirst_of_not_mem {c : Char} {l : List Char} (h : c ∉ l) :
    splitAtFirst c l = none := by
  induction l with
  | nil => rfl
  | cons x xs ih =>
    have hx : ¬ x = c := by
      intro he
      exact h (by simp [he])
    simp [splitAtFirst, hx, ih (fun hm => h (List.mem_cons_of_mem _ hm))]

theorem splitAtFirst_append {c : Char} {a : List Char} (b : List Char) (h : c ∉ a) :
    splitAtFirst c (a ++ c :: b) = some (a, b) := by
  induction a with
  | nil => simp [splitAtFirst]
  | cons x xs ih =>
    have hx : ¬ x = c := by
      intro he
      exact h (by simp [he])
    simp only [List.cons_append, splitAtFirst, if_neg hx, List.append_eq]
    rw [ih (fun hm => h (List.mem_cons_of_mem _ hm))]
    rfl

theorem splitAtLast_of_not_mem {c : Char} {l : List Char} (h : c ∉ l) :
    splitAtLast c l = none := by
  unfold splitAtLast
  rw [splitAtFirst_of_not_mem (by simpa using h)]

theorem splitAtLast_append {c : Char} (a : List Char) {b : List Char} (h : c ∉ b) :
    splitAtLast c (a ++ c :: b) = some (a, b) := by
  unfold splitAtLast
  have hrev : (a ++ c :: b).reverse = b.reverse ++ c :: a.reverse := by
    simp
  rw [hrev, splitAtFirst_append a.reverse (by simpa using h)]
  simp

theorem splitOnCharAux_of_not_mem {c : Char} {l : List Char} (h : c ∉ l) (acc : List Char) :
    splitOnCharAux c l acc = [acc.reverse ++ l] := by
  induction l generalizing acc with
  | nil => simp [splitOnCharAux]
  | cons x xs ih =>
    have hx : ¬ x = c := by
      intro he
      exact h (by simp [he])
    simp only [splitOnCharAux, if_neg hx]
    rw [ih (fun hm => h (List.mem_cons_of_mem _ hm))]
    simp

theorem splitOnCharAux_append {c : Char} {a : List Char} (b : List Char) (h : c ∉ a)
    (acc : List Char) :
    splitOnCharAux c (a ++ c :: b) acc = (acc.reverse ++ a) :: splitOnCharAux c b [] := by
  induction a generalizing acc with
  | nil => simp [splitOnCharAux]
  | cons x xs ih =>
    have hx : ¬ x = c := by
      intro he
      exact h (by simp [he])
    simp only [List.cons_append, splitOnCharAux, if_neg hx, List.append_eq]
    rw [ih (fun hm => h (List.mem_cons_of_mem _ hm))]
    simp

theorem epochFromChars_natToChars {e : Nat} (he : e < 4294967296) :
    epochFromChars (natToChars e) = some e := by
  unfold epochFromChars
  rw [if_neg (natToChars_ne_nil e), parseU32_natToChars he]

theorem releaseFromChars_natToChars {r : Nat} (hr : r < 4294967296) :
    releaseFromChars (natToChars r) = r := by
  unfold releaseFromChars
  rw [parseU32_natToChars hr]
  rfl

theorem versionFromChars_display {M m p : Nat} (hM : M < 4294967296)
    (hm : m < 4294967296) (hp : p < 4294967296) :
    versionFromChars (natToChars M ++ '.' :: (natToChars m ++ '.' :: natToChars p)) =
      ⟨M, m, p⟩ := by
  have hM' : '.' ∉ natToChars M :=
    not_mem_of_all_isDigit (natToChars_all_isDigit M) (by decide)
  have hm' : '.' ∉ natToChars m :=
    not_mem_of_all_isDigit (natToChars_all_isDigit m) (by decide)
  have hp' : '.' ∉ natToChars p :=
    not_mem_of_all_isDigit (natToChars_all_isDigit p) (by decide)
  unfold versionFromChars splitOnChar
  rw [splitOnCharAux_append _ hM' [], splitOnCharAux_append _ hm' [],
    splitOnCharAux_of_not_mem hp' []]
  simp [parseU32_natToChars hM, parseU32_natToChars hm, parseU32_natToChars hp]

theorem displayChars_none (M m p r : Nat) :
    displayChars ⟨none, ⟨M, m, p⟩, r⟩ =
      (natToChars M ++ '.' :: (natToChars m ++ '.' :: natToChars p)) ++
        '-' :: natToChars r := by
  simp [displayChars]

theorem displayChars_some (e M m p r : Nat) :
    displayChars ⟨some e, ⟨M, m, p⟩, r⟩ =
      natToChars e ++ ':' ::
        ((natToChars M ++ '.' :: (natToChars m ++ '.' :: natToChars p)) ++
          '-' :: natToChars r) := by
  simp [displayChars]

theorem mem_versionBody {x : Char} {M m p r : Nat}
    (h : x ∈ (natToChars M ++ '.' :: (natToChars m ++ '.' :: natToChars p)) ++
      '-' :: natToChars r) :
    x.isDigit = true ∨ x = '.' ∨ x = '-' := by
  rcases List.mem_append.mp h with h1 | h1
  · rcases List.mem_append.mp h1 with h2 | h2
    · exact Or.inl (natToChars_all_isDigit M x h2)
    · rcases List.mem_cons.mp h2 with h3 | h3
      · exact Or.inr (Or.inl h3)
      · rcases List.mem_append.mp h3 with h4 | h4
        · exact Or.inl (natToChars_all_isDigit m x h4)
        · rcases List.mem_cons.mp h4 with h5 | h5
          · exact Or.inr (Or.inl h5)
          · exact Or.inl (natToChars_all_isDigit p x h5)
  · rcases List.mem_cons.mp h1 with h2 | h2
    · exact Or.inr (Or.inr h2)
    · exact Or.inl (natToChars_all_isDigit r x h2)

theorem parse_displayChars (v : FullVersion)
    (he : ∀ e, v.epoch = some e → e < 4294967296)
    (hM : v.version.major < 4294967296) (hm : v.version.minor < 4294967296)
    (hp : v.version.patch < 4294967296) (hr : v.release < 4294967296) :
    fullVersionFromChars (displayChars v) = v := by
  obtain ⟨ep, ⟨M, m, p⟩, r⟩ := v
  simp only at hM hm hp hr
  have hdash : '-' ∉ natToChars r :=
    not_mem_of_all_isDigit (natToChars_all_isDigit r) (by decide)
  have hsplitRel :
      releaseSplit
          ((natToChars M ++ '.' :: (natToChars m ++ '.' :: natToChars p)) ++
            '-' :: natToChars r) =
        (natToChars M ++ '.' :: (natToChars m ++ '.' :: natToChars p), natToChars r) := by
    unfold releaseSplit
    rw [splitAtLast_append _ hdash]
  cases ep with
  | none =>
    rw [displayChars_none]
    have hcol :
        ':' ∉ (natToChars M ++ '.' :: (natToChars m ++ '.' :: natToChars p)) ++
          '-' :: natToChars r := by
      intro hmem
      rcases mem_versionBody hmem with h | h | h <;> simp at h
    have hsplitEp :
        epochSplit
            ((natToChars M ++ '.' :: (natToChars m ++ '.' :: natToChars p)) ++
              '-' :: natToChars r) =
          ([], (natToChars M ++ '.' :: (natToChars m ++ '.' :: natToChars p)) ++
            '-' :: natToChars r) := by
      unfold epochSplit
      rw [splitAtFirst_of_not_mem hcol]
    unfold fullVersionFromChars
    rw [hsplitEp]
    simp only
    rw [hsplitRel]
    simp only
    rw [versionFromChars_display hM hm hp, releaseFromChars_natToChars hr]
    simp [epochFromChars]
  | some e =>
    have he' : e < 4294967296 := he e rfl
    rw [displayChars_some]
    have hcolE : ':' ∉ natToChars e :=
      not_mem_of_all_isDigit (natToChars_all_isDigit e) (by decide)
    have hsplitEp :
        epochSplit
            (natToChars e ++ ':' ::
              ((natToChars M ++ '.' :: (natToChars m ++ '.' :: natToChars p)) ++
                '-' :: natToChars r)) =
          (natToChars e,
            (natToChars M ++ '.' :: (natToChars m ++ '.' :: natToChars p)) ++
              '-' :: natToChars r) := by
      unfold epochSplit
      rw [splitAtFirst_append _ hcolE]
    unfold fullVersionFromChars
    rw [hsplitEp]
    simp only
    rw [hsplitRel]
    simp only
    rw [versionFromChars_display hM hm hp, releaseFromChars_natToChars hr,
      epochFromChars_natToChars he']

theorem bind_parseU32_lt (o : Option (List Char)) :
    ((o.bind parseU32).getD 0) < 4294967296 := by
  cases o with
  | none => simp
  | some s =>
    cases h : parseU32 s with
    | none => simp [h]
    | some n => simp [h, parseU32_lt h]

theorem fullVersionFromChars_bounds (s : List Char) :
    (∀ e, (fullVersionFromChars s).epoch = some e → e < 4294967296) ∧
      (fullVersionFromChars s).version.major < 4294967296 ∧
      (fullVersionFromChars s).version.minor < 4294967296 ∧
      (fullVersionFromChars s).version.patch < 4294967296 ∧
      (fullVersionFromChars s).release < 4294967296 := by
  refine ⟨?_, ?_, ?_, ?_, ?_⟩
  · intro e hep
    unfold fullVersionFromChars epochFromChars at hep
    simp only at hep
    split at hep
    · cases hep
    · exact parseU32_lt hep
  · exact bind_parseU32_lt _
  · exact bind_parseU32_lt _
  · exact bind_parseU32_lt _
  · unfold fullVersionFromChars releaseFromChars
    simp only
    cases h : parseU32 (releaseSplit (epochSplit s).2).2 with
    | none => simp
    | some n => simp [parseU32_lt h]

/-- C1: round trip — for every `FullVersion` constructible by the parser,
parsing the canonical `[epoch:]major.minor.patch-release` rendering
(epoch omitted when absent, release always rendered) gives the value
back: `Parse(Format(Parse(s))) = Parse(s)` for every input string. -/
theorem parse_format_roundtrip (s : List Char) :
    fullVersionFromChars (displayChars (fullVersionFromChars s)) = fullVersionFromChars s := by
  obtain ⟨hep, hM, hm, hp, hr⟩ := fullVersionFromChars_bounds s
  exact parse_displayChars _ hep hM hm hp hr

/-- C5: the delta is the pair of set differences between the
deduplicated desired names and the installed names — membership in each
side is exactly as the spec states, the two sides are disjoint, equal
name sets give two empty results, and the spec's concrete
`{a,b,c}` versus `{b,c,d}` example computes to `({a}, {d})`. -/
theorem computeDelta_correct (desired : List Package) (installed : List String) :
    (∀ x, x ∈ (computeDelta desired installed).1 ↔
        x ∈ desired.map Package.name ∧ x ∉ installed) ∧
    (∀ x, x ∈ (computeDelta desired installed).2 ↔
        x ∈ installed ∧ x ∉ desired.map Package.name) ∧
    Disjoint (computeDelta desired installed).1 (computeDelta desired installed).2 ∧
    ((desired.map Package.name).toFinset = installed.toFinset →
      (computeDelta desired installed).1 = ∅ ∧ (computeDelta desired installed).2 = ∅) ∧
    computeDelta [⟨"a", none⟩, ⟨"b", none⟩, ⟨"c", none⟩] ["b", "c", "d"] =
      ({"a"}, {"d"}) := by
  refine ⟨?_, ?_, ?_, ?_, ?_⟩
  · intro x
    simp [computeDelta]
  · intro x
    simp [computeDelta]
  · exact disjoint_sdiff_sdiff
  · intro h
    constructor <;> simp [computeDelta, h]
  · decide

/-- C5 witness: equal desired and installed name sets give two empty
delta sets. -/
theorem computeDelta_correct_witness :
    (computeDelta [⟨"a", none⟩] ["a"]).1 = ∅ ∧
      (computeDelta [⟨"a", none⟩] ["a"]).2 = ∅ :=
  (computeDelta_correct [⟨"a", none⟩] ["a"]).2.2.2.1 (by decide)

/-- C6: with `continue_on_error` false, the removal phase precedes the
install phase, each non-empty phase is one collaborator invocation with
that phase's entire name set, and a failing exit status of the removal
batch aborts the whole apply with the phase-failed error before any
install invocation. -/
theorem apply_failFast (toRemove toInstall : List String) (ops : Ops)
    (h : toRemove ≠ []) :
    (ops.remove toRemove = OpResult.status false →
      applyPackages toRemove toInstall ops false =
        ([Call.remove toRemove], Except.error "Failed to remove some packages")) ∧
    (ops.remove toRemove = OpResult.status true →
      (applyPackages toRemove toInstall ops false).1 =
        Call.remove toRemove ::
          (if toInstall = [] then [] else [Call.install toInstall])) := by
  constructor
  · intro hrem
    simp [applyPackages, h, hrem]
  · intro hrem
    by_cases hti : toInstall = []
    · simp [applyPackages, h, hrem, hti]
    · rcases hins : ops.install toInstall with m | b
      · simp [applyPackages, h, hrem, hti, hins]
      · cases b <;> simp [applyPackages, h, hrem, hti, hins]

/-- C6 witness: a failing removal batch aborts before the install
phase, and a succeeding one is followed by the single install batch. -/
theorem apply_failFast_witness :
    applyPackages ["x"] ["y"]
        ⟨fun _ => OpResult.status false, fun _ => OpResult.status true⟩ false =
      ([Call.remove ["x"]], Except.error "Failed to remove some packages") ∧
    (applyPackages ["x"] ["y"]
        ⟨fun _ => OpResult.status true, fun _ => OpResult.status true⟩ false).1 =
      Call.remove ["x"] :: (if (["y"] : List String) = [] then [] else [Call.install ["y"]]) := by
  constructor
  · exact (apply_failFast ["x"] ["y"]
      ⟨fun _ => OpResult.status false, fun _ => OpResult.status true⟩ (by decide)).1 rfl
  · exact (apply_failFast ["x"] ["y"]
      ⟨fun _ => OpResult.status true, fun _ => OpResult.status true⟩ (by decide)).2 rfl

theorem runPerPackage_status (mkCall : List String → Call) (op : List String → OpResult)
    (pkgs : List String) (h : ∀ p ∈ pkgs, ∃ b, op [p] = OpResult.status b) :
    runPerPackage mkCall op pkgs =
      (pkgs.map (fun p => mkCall [p]),
        Except.ok (pkgs.filter (fun p => decide (op [p] = OpResult.status false)))) := by
  induction pkgs with
  | nil => rfl
  | cons p rest ih =>
    obtain ⟨b, hb⟩ := h p (List.mem_cons_self _ _)
    have ih' := ih (fun q hq => h q (List.mem_cons_of_mem _ hq))
    cases b
    · simp [runPerPackage, hb, ih', List.filter_cons]
    · simp [runPerPackage, hb, ih', List.filter_cons]

theorem applyPackages_continue_eq (toRemove toInstall : List String) (ops : Ops)
    (hr : ∀ p ∈ toRemove, ∃ b, ops.remove [p] = OpResult.status b)
    (hi : ∀ p ∈ toInstall, ∃ b, ops.install [p] = OpResult.status b) :
    applyPackages toRemove toInstall ops true =
      (toRemove.map (fun p => Call.remove [p]) ++
          toInstall.map (fun p => Call.install [p]),
        if toRemove.filter (fun p => decide (ops.remove [p] = OpResult.status false)) = [] ∧
            toInstall.filter (fun p => decide (ops.install [p] = OpResult.status false)) = []
          then Except.ok ()
          else Except.error (aggregateMessage
            (toRemove.filter (fun p => decide (ops.remove [p] = OpResult.status false)))
            (toInstall.filter (fun p => decide (ops.install [p] = OpResult.status false))))) := by
  have hR := runPerPackage_status Call.remove ops.remove toRemove hr
  have hI := runPerPackage_status Call.install ops.install toInstall hi
  by_cases hboth : toInstall = [] ∧ toRemove = []
  · obtain ⟨h1, h2⟩ := hboth
    subst h1
    subst h2
    simp [applyPackages]
  · unfold applyPackages
    rw [if_neg hboth]
    by_cases htr : toRemove = []
    · have hti : ¬ toInstall = [] := fun hti => hboth ⟨hti, htr⟩
      subst htr
      simp only [if_pos rfl, if_neg hti, if_pos rfl]
      rw [hI]
      simp
    · rw [if_neg htr]
      simp only [if_pos rfl]
      rw [hR]
      by_cases hti : toInstall = []
      · subst hti
        simp
      · simp only [if_neg hti, if_pos rfl]
        rw [hI]
        simp

/-- C7: with `continue_on_error` true, the apply invokes the
collaborator once per package name in each phase (all removals in order,
then all installs in order, regardless of individual failures), the
result is Ok exactly when no per-package failure was recorded, and
otherwise it is the aggregated error rendering the failed removals and
then the failed installs, each category only when non-empty and each
followed by a newline. -/
theorem apply_continue_semantics (toRemove toInstall : List String) (ops : Ops)
    (hr : ∀ p ∈ toRemove, ∃ b, ops.remove [p] = OpResult.status b)
    (hi : ∀ p ∈ toInstall, ∃ b, ops.install [p] = OpResult.status b) :
    (applyPackages toRemove toInstall ops true).1 =
        toRemove.map (fun p => Call.remove [p]) ++
          toInstall.map (fun p => Call.install [p]) ∧
    ((applyPackages toRemove toInstall ops true).2 = Except.ok () ↔
      toRemove.filter (fun p => decide (ops.remove [p] = OpResult.status false)) = [] ∧
        toInstall.filter (fun p => decide (ops.install [p] = OpResult.status false)) = []) ∧
    (¬ (toRemove.filter (fun p => decide (ops.remove [p] = OpResult.status false)) = [] ∧
        toInstall.filter (fun p => decide (ops.install [p] = OpResult.status false)) = []) →
      (applyPackages toRemove toInstall ops true).2 =
        Except.error
          ((if toRemove.filter (fun p => decide (ops.remove [p] = OpResult.status false)) = []
            then ""
            else "Failed to remove packages: " ++
              String.intercalate ", "
                (toRemove.filter (fun p => decide (ops.remove [p] = OpResult.status false))) ++
              "\n") ++
            (if toInstall.filter (fun p => decide (ops.install [p] = OpResult.status false)) = []
              then ""
              else "Failed to install packages: " ++
                String.intercalate ", "
                  (toInstall.filter
                    (fun p => decide (ops.install [p] = OpResult.status false))) ++
                "\n"))) := by
  have heq := applyPackages_continue_eq toRemove toInstall ops hr hi
  refine ⟨?_, ?_, ?_⟩
  · rw [heq]
  · rw [heq]
    by_cases hc :
        toRemove.filter (fun p => decide (ops.remove [p] = OpResult.status false)) = [] ∧
          toInstall.filter (fun p => decide (ops.install [p] = OpResult.status false)) = []
    · simp [hc]
    · simp [hc]
  · intro hne
    rw [heq]
    simp only [if_neg hne]
    rfl

/-- C7 witness: one failing removal among a removal and an install, with
`continue_on_error` true — both phases still run one call per package
and the aggregate error names the failed removal. -/
theorem apply_continue_semantics_witness :
    (applyPackages ["a"] ["c"]
        ⟨fun _ => OpResult.status false, fun _ => OpResult.status true⟩ true).1 =
      [Call.remove ["a"], Call.install ["c"]] ∧
    (applyPackages ["a"] ["c"]
        ⟨fun _ => OpResult.status false, fun _ => OpResult.status true⟩ true).2 =
      Except.error "Failed to remove packages: a\n" := by
  have h := apply_continue_semantics ["a"] ["c"]
    ⟨fun _ => OpResult.status false, fun _ => OpResult.status true⟩
    (fun p _ => ⟨false, rfl⟩) (fun p _ => ⟨true, rfl⟩)
  refine ⟨h.1.trans rfl, (h.2.2 (by decide)).trans rfl⟩

theorem runPerPackage_ioError (mkCall : List String → Call) (op : List String → OpResult)
    (pre post : List String) (p m : String)
    (hpre : ∀ q ∈ pre, ∃ b, op [q] = OpResult.status b)
    (hp : op [p] = OpResult.ioError m) :
    runPerPackage mkCall op (pre ++ p :: post) =
      (pre.map (fun q => mkCall [q]) ++ [mkCall [p]], Except.error m) := by
  induction pre with
  | nil => simp [runPerPackage, hp]
  | cons q qs ih =>
    obtain ⟨b, hb⟩ := hpre q (List.mem_cons_self _ _)
    simp [runPerPackage, hb, ih (fun x hx => hpre x (List.mem_cons_of_mem _ hx))]

/-- C10: with `continue_on_error` true, an IO error from an individual
remove or install invocation (the collaborator could not be executed, as
opposed to a failing exit status) aborts the apply at that point: the
result is exactly that IO error's message — per-package failures
recorded earlier in the run are discarded — and no later invocation of
that run is made. -/
theorem apply_continue_ioError_aborts (ops : Ops) (pre post : List String) (p m : String) :
    (∀ toInstall : List String,
      (∀ q ∈ pre, ∃ b, ops.remove [q] = OpResult.status b) →
      ops.remove [p] = OpResult.ioError m →
      applyPackages (pre ++ p :: post) toInstall ops true =
        (pre.map (fun q => Call.remove [q]) ++ [Call.remove [p]], Except.error m)) ∧
    (∀ toRemove : List String,
      (∀ q ∈ toRemove, ∃ b, ops.remove [q] = OpResult.status b) →
      (∀ q ∈ pre, ∃ b, ops.install [q] = OpResult.status b) →
      ops.install [p] = OpResult.ioError m →
      applyPackages toRemove (pre ++ p :: post) ops true =
        (toRemove.map (fun q => Call.remove [q]) ++
            (pre.map (fun q => Call.install [q]) ++ [Call.install [p]]),
          Except.error m)) := by
  constructor
  · intro toInstall hpre hp
    unfold applyPackages
    rw [runPerPackage_ioError Call.remove ops.remove pre post p m hpre hp]
    simp
  · intro toRemove hrem hpre hp
    unfold applyPackages
    rw [runPerPackage_ioError Call.install ops.install pre post p m hpre hp,
      runPerPackage_status Call.remove ops.remove toRemove hrem]
    by_cases htr : toRemove = []
    · subst htr
      simp
    · simp [htr]

/-- C10 witness: a removal IO error after one recorded removal failure —
the result is only the IO error message and the run stops there. -/
theorem apply_continue_ioError_aborts_witness :
    applyPackages ["a", "b"] ["c"]
        ⟨fun l => if l = ["b"] then OpResult.ioError "boom" else OpResult.status false,
          fun _ => OpResult.status true⟩ true =
      ([Call.remove ["a"], Call.remove ["b"]], Except.error "boom") := by
  have h := (apply_continue_ioError_aborts
    ⟨fun l => if l = ["b"] then OpResult.ioError "boom" else OpResult.status false,
      fun _ => OpResult.status true⟩ ["a"] [] "b" "boom").1 ["c"]
    (by intro q hq; simp at hq; subst hq; exact ⟨false, rfl⟩) (by rfl)
  exact h.trans rfl

theorem packageFromMapLoop_no_name (entries : List (String × Yaml))
    (h : ∀ kv ∈ entries, kv.1 ≠ "name") (vAcc : Option FullVersion) (pkg : Package) :
    packageFromMapLoop entries none vAcc ≠ Except.ok pkg := by
  induction entries generalizing vAcc with
  | nil => simp [packageFromMapLoop]
  | cons kv rest ih =>
    obtain ⟨k, val⟩ := kv
    have hk : ¬ k = "name" := h (k, val) (List.mem_cons_self _ _)
    have hrest : ∀ kv ∈ rest, kv.1 ≠ "name" :=
      fun kv hkv => h kv (List.mem_cons_of_mem _ hkv)
    simp only [packageFromMapLoop, if_neg hk]
    by_cases hv : k = "version"
    · rw [if_pos hv]
      cases hfv : fullVersionDeser val with
      | ok fv => exact ih hrest (some fv)
      | error e => simp
    · rw [if_neg hv]
      exact ih hrest vAcc

/-- C8 counterexample: a mapping entry whose `version` field is null is
rejected by the deserializer (the `FullVersion` visitor only accepts
strings), so it does not produce the version-absent package the claim
asserts. -/
theorem package_version_null_cex :
    packageDeser (Yaml.map [("name", Yaml.str "foo"), ("version", Yaml.null)]) =
      Except.error "invalid type: null, expected a version string" := rfl

/-- C8 amended: a mapping entry with no `version` field deserializes to
a version-absent package, a `version` field holding null is a fatal
invalid-type parse error (not a version-absent package), unknown fields
are ignored, and a mapping with no `name` field is a fatal parse
error. -/
theorem package_entry_deser_amended :
    (∀ n : String, packageDeser (Yaml.map [("name", Yaml.str n)]) =
        Except.ok { name := n, version := none }) ∧
    (packageDeser (Yaml.map [("name", Yaml.str "foo"), ("version", Yaml.null)]) =
      Except.error "invalid type: null, expected a version string") ∧
    (∀ (n k : String) (v : Yaml), k ≠ "name" → k ≠ "version" →
      packageDeser (Yaml.map [("name", Yaml.str n), (k, v)]) =
        Except.ok { name := n, version := none }) ∧
    (∀ (entries : List (String × Yaml)) (pkg : Package),
      (∀ kv ∈ entries, kv.1 ≠ "name") →
      packageFromMap entries ≠ Except.ok pkg) := by
  refine ⟨?_, rfl, ?_, ?_⟩
  · intro n
    simp [packageDeser, packageFromMap, packageFromMapLoop]
  · intro n k v h1 h2
    simp [packageDeser, packageFromMap, packageFromMapLoop, h1, h2]
  · intro entries pkg h
    exact packageFromMapLoop_no_name entries h none pkg

/-- C8 witness: the amended behaviour at concrete entries — version
field absent, an ignored unknown field, and a mapping with no name. -/
theorem package_entry_deser_amended_witness :
    packageDeser (Yaml.map [("name", Yaml.str "foo")]) =
        Except.ok { name := "foo", version := none } ∧
      packageDeser (Yaml.map [("name", Yaml.str "foo"), ("extra", Yaml.null)]) =
        Except.ok { name := "foo", version := none } ∧
      packageFromMap [("version", Yaml.str "1")] ≠
        Except.ok { name := "x", version := none } := by
  refine ⟨package_entry_deser_amended.1 "foo",
    package_entry_deser_amended.2.2.1 "foo" "extra" Yaml.null (by decide) (by decide),
    package_entry_deser_amended.2.2.2 [("version", Yaml.str "1")] ⟨"x", none⟩ ?_⟩
  intro kv hkv
  simp at hkv
  subst hkv
  decide

/-- C9: the listing parser yields one `Package` per input line in input
order: with `versioned` false the name is the line's first
whitespace-delimited token and the version is absent; with `versioned`
true the line is split at the first space into name and version tail,
an empty tail meaning no version and a non-empty tail going through the
version parser — including the spec's concrete two-line example. -/
theorem parse_listing_per_line :
    (∀ (output : String) (i : Nat),
      (parse_explicit_packages output false).get? i =
        ((rustLines output).get? i).map
          (fun line => { name := firstWhitespaceToken line, version := none })) ∧
    (∀ (output : String) (i : Nat),
      (parse_explicit_packages output true).get? i =
        ((rustLines output).get? i).map packageFromLine) ∧
    (∀ (output : String) (versioned : Bool),
      (parse_explicit_packages output versioned).length = (rustLines output).length) ∧
    (parse_explicit_packages "foo 1.0.0-1\nbar" true =
      [{ name := "foo", version := some (fullVersionOfString "1.0.0-1") },
        { name := "bar", version := none }]) ∧
    (parse_explicit_packages "foo 1.0.0-1\nbar" false =
      [{ name := "foo", version := none }, { name := "bar", version := none }]) ∧
    (parse_explicit_packages "a b c" true =
      [{ name := "a", version := some (fullVersionOfString "b c") }]) ∧
    (parse_explicit_packages " foo bar" false = [{ name := "foo", version := none }]) ∧
    (parse_explicit_packages "foo\x0Bbar" false = [{ name := "foo", version := none }]) := by
  refine ⟨?_, ?_, ?_, by decide, by decide, by decide, by decide, by decide⟩
  · intro output i
    simp [parse_explicit_packages, List.get?_map]
  · intro output i
    simp [parse_explicit_packages, List.get?_map]
  · intro output versioned
    cases versioned <;> simp [parse_explicit_packages]

end Nixman
